import Mathlib

/-!
Shallow embedding of `src/DRSpy/plugins/digitizer_reader.py`.

Conventions of the embedding:
* numpy float samples are modelled exactly as rationals (`ℚ`);
* timestamps are modelled as unbounded integers (`ℤ`), matching the
  spec's view of the counter values (realistic inputs stay far below the
  64-bit range of the numpy arrays);
* Python code that can raise an exception is modelled in `Option`:
  `none` is "the call raised";
* the structured file (`uproot` tree) is a black box exposing its key
  list and the contents of the `channel<N>_waveforms` / `timestamp`
  branches, exactly the survey the source performs on it.
-/

namespace DRSpy

/-! ## RawDataContainer (`digitizer_reader.py`, lines 8-38) -/

/-- The structured data source (`uproot` tree): its keys, the lookup of a
waveform branch by name (`none` models a `KeyError`), and the `timestamp`
branch (`none` models the key being absent). -/
structure RootFile where
  keys : List String
  waveformBranch : String → Option (List (List ℚ))
  timestampBranch : Option (List ℤ)

/-- Strip `pat` from the front of `s` (`none` when `s` does not start
with `pat`). -/
def stripPre : List Char → List Char → Option (List Char)
  | [], s => some s
  | _ :: _, [] => none
  | p :: ps, c :: cs => if p = c then stripPre ps cs else none

/-- Leftmost occurrence of the non-empty pattern `pat` in `s`: the text
before it and the text after it, `none` when `pat` does not occur.
This is the scan Python's `str.split(sep)` performs for each piece. -/
def splitFirst (pat : List Char) : List Char → Option (List Char × List Char)
  | [] => none
  | c :: cs =>
    match stripPre pat (c :: cs) with
    | some rest => some ([], rest)
    | none =>
      match splitFirst pat cs with
      | some (pre, post) => some (c :: pre, post)
      | none => none

/-- Python `pat in s` (substring test, for non-empty `pat`). -/
def containsSubstr (s pat : String) : Bool :=
  (splitFirst pat.data s.data).isSome

/-- Python `int(str)` on a piece of a key: optional minus sign followed
by at least one decimal digit (`none` models the `ValueError`; Python
additionally strips whitespace and accepts `+`/`_`, which never occur in
the branch names this parser is applied to). -/
def digitVal (c : Char) : Option ℕ :=
  if c.isDigit then some (c.toNat - '0'.toNat) else none

def parseDigits : List Char → Option ℕ
  | [] => none
  | [c] => digitVal c
  | c :: cs => do
    let n ← digitVal c
    let m ← parseDigits cs
    return n * 10 ^ cs.length + m

def parseInt (s : List Char) : Option ℤ :=
  match s with
  | '-' :: rest => (parseDigits rest).map (fun n => -(n : ℤ))
  | _ => (parseDigits s).map (fun n => (n : ℤ))

/-- One step of `get_channel_list`'s comprehension body,
`int(channel.split('_')[0].split('channel')[1])`:
* `split('_')[0]` is the text before the first `'_'` (the whole string
  when there is none);
* `split('channel')[1]` is the text between the first occurrence of
  `'channel'` and the following one (or the end); when `'channel'` does
  not occur the split has a single piece and `[1]` raises `IndexError`,
  modelled by `none`;
* `int(...)` failing to parse raises `ValueError`, modelled by `none`. -/
def extractChannel (key : String) : Option ℤ :=
  match splitFirst "channel".data (key.data.takeWhile (fun c => c != '_')) with
  | none => none
  | some (_, post) =>
    match splitFirst "channel".data post with
    | some (piece, _) => parseInt piece
    | none => parseInt post

/-- A Python list comprehension whose body may raise: `none` as soon as
one element raises. -/
def mapOption (f : α → Option β) : List α → Option (List β)
  | [] => some []
  | a :: l => do
    let b ← f a
    let bs ← mapOption f l
    return b :: bs

/-- `RawDataContainer.get_channel_list` (lines 26-30): parse every key
containing `'waveforms'`, then deduplicate (`list(set(channels))`; the
set is modelled as a duplicate-free list). `none` models an exception
from the comprehension. -/
def get_channel_list (keys : List String) : Option (List ℤ) :=
  (mapOption extractChannel (keys.filter (fun k => containsSubstr k "waveforms"))).map List.dedup

/-- The three parallel arrays held by `RawDataContainer.__init__`. -/
structure RawDataContainer where
  channels : List ℤ
  waveforms : List (List (List ℚ))
  timestamps : List ℤ
  deriving DecidableEq

/-- `RawDataContainer.__init__` (lines 13-21): discover the channels,
fetch each `channel<N>_waveforms` branch (lines 32-34), fetch the
`timestamp` branch (lines 36-38); any exception aborts construction. -/
def containerFromFile (f : RootFile) : Option RawDataContainer := do
  let channels ← get_channel_list f.keys
  let waveforms ← mapOption (fun c => f.waveformBranch ("channel" ++ toString c ++ "_waveforms")) channels
  let timestamps ← f.timestampBranch
  return ⟨channels, waveforms, timestamps⟩

/-! ## Preprocessor (`digitizer_reader.py`, lines 41-90) -/

/-- The per-waveform baseline of `subtract_baseline` (line 58):
`np.mean(waveform[:50])` — the mean of the first (at most) 50 samples. -/
def baseline (w : List ℚ) : ℚ :=
  (w.take 50).sum / (w.take 50).length

/-- `Preprocessor.subtract_baseline` (lines 55-60), per waveform:
subtract the baseline from every sample. -/
def subtract_baseline (w : List ℚ) : List ℚ :=
  w.map (fun x => x - baseline w)

/-- `Preprocessor.turn_into_volts` (lines 62-66), per sample:
divide by 4096. -/
def turn_into_volts (w : List ℚ) : List ℚ :=
  w.map (fun x => x / 4096)

/-- The reset indices of `correct_timestamps` (line 71):
`np.where(timestamps[:-1] > timestamps[1:])[0] + 1`. -/
def resetIndices (ts : List ℤ) : List ℕ :=
  ((List.range (ts.length - 1)).filter
      (fun i => decide (ts.getD (i + 1) 0 < ts.getD i 0))).map (· + 1)

/-- numpy's `ts[r:] += inc`: leave the first `r` entries, add `inc` to
the rest. -/
def addFrom (r : ℕ) (inc : ℤ) (ts : List ℤ) : List ℤ :=
  ts.take r ++ (ts.drop r).map (fun x => x + inc)

/-- The loop of `correct_timestamps` (lines 75-76):
`for i, reset_index in enumerate(reset_indices): ts[reset_index:] += increment * (i + 1)`
with `increment = 2**30`. -/
def applyResets (ts : List ℤ) : List (ℕ × ℕ) → List ℤ
  | [] => ts
  | (i, r) :: rest => applyResets (addFrom r (2 ^ 30 * ((i : ℤ) + 1)) ts) rest

/-- `Preprocessor.correct_timestamps` (lines 68-77): the reset indices
are found once on the incoming array, then the loop mutates the array. -/
def correct_timestamps (ts : List ℤ) : List ℤ :=
  applyResets ts (resetIndices ts).enum

/-- `Preprocessor.preprocess` (lines 79-90): baseline subtraction, then
unit conversion (both per waveform of every channel), then timestamp
correction, on the same container. -/
def preprocess (r : RawDataContainer) : RawDataContainer :=
  { r with
    waveforms := r.waveforms.map (fun ch => ch.map (fun w => turn_into_volts (subtract_baseline w)))
    timestamps := correct_timestamps r.timestamps }

/-! ## DigitizerEvent (`digitizer_reader.py`, lines 95-106) -/

/-- Model of `np.amin`: `none` on an empty array models the raised `ValueError`. -/
def listMin : List ℚ → Option ℚ
  | [] => none
  | x :: xs => some (xs.foldl min x)

/-- The `DigitizerEvent` dataclass: waveform, timestamp, and the
`amplitude` field filled in by `__post_init__`. -/
structure DigitizerEvent where
  waveform : List ℚ
  timestamp : ℤ
  amplitude : ℚ
  deriving DecidableEq

/-- Constructing a `DigitizerEvent` (lines 95-106): `__post_init__` sets
`amplitude = np.amin(waveform) * -1`; an empty waveform makes `np.amin`
raise, modelled by `none`. -/
def makeEvent (waveform : List ℚ) (timestamp : ℤ) : Option DigitizerEvent :=
  (listMin waveform).map (fun m => ⟨waveform, timestamp, -m⟩)

/-! ## DigitizerEventData (`digitizer_reader.py`, lines 109-136) -/

/-- `next` on `itertools.cycle(ts)` when the cursor has already advanced
`cursor` times: yields `ts[cursor % len ts]`; on an empty `ts` there is
nothing to yield (`next` raises `StopIteration`), modelled by `none`. -/
def nextTimestamp (ts : List ℤ) (cursor : ℕ) : Option ℤ :=
  ts.get? (cursor % ts.length)

/-- The inner comprehension of `create_events_dict` (line 126): one event
per waveform of the channel, each drawing the next timestamp from the
shared cyclic cursor. -/
def buildChannelEvents (ts : List ℤ) : List (List ℚ) → ℕ → Option (List DigitizerEvent)
  | [], _ => some []
  | w :: ws, cursor => do
    let t ← nextTimestamp ts cursor
    let e ← makeEvent w t
    let rest ← buildChannelEvents ts ws (cursor + 1)
    return e :: rest

/-- The outer loop of `create_events_dict` (lines 125-126):
`for channel, waveforms in zip(...)`, the cursor advancing across
channels. The Python dict (insertion-ordered) is an association list. -/
def buildEvents (ts : List ℤ) : List (ℤ × List (List ℚ)) → ℕ → Option (List (ℤ × List DigitizerEvent))
  | [], _ => some []
  | (c, ws) :: rest, cursor => do
    let evs ← buildChannelEvents ts ws cursor
    let restDict ← buildEvents ts rest (cursor + ws.length)
    return (c, evs) :: restDict

/-- `DigitizerEventData.create_events_dict` (lines 117-127). -/
def create_events_dict (channels : List ℤ) (waveforms : List (List (List ℚ))) (ts : List ℤ) :
    Option (List (ℤ × List DigitizerEvent)) :=
  buildEvents ts (channels.zip waveforms) 0

/-- `DigitizerEventData.create_from_file` (lines 129-136): container →
preprocess → events dict. -/
def create_from_file (f : RootFile) : Option (List (ℤ × List DigitizerEvent)) := do
  let raw ← containerFromFile f
  let d := preprocess raw
  create_events_dict d.channels d.waveforms d.timestamps

/-! ## Timestamp correction: positional characterisation -/

theorem addFrom_nil (r : ℕ) (inc : ℤ) : addFrom r inc [] = [] := by
  simp [addFrom]

theorem addFrom_zero (inc : ℤ) (ts : List ℤ) : addFrom 0 inc ts = ts.map (fun x => x + inc) := by
  simp [addFrom]

theorem addFrom_succ_cons (r : ℕ) (inc : ℤ) (x : ℤ) (ts : List ℤ) :
    addFrom (r + 1) inc (x :: ts) = x :: addFrom r inc ts := by
  simp [addFrom, List.take_succ_cons, List.drop_succ_cons]

theorem length_addFrom (r : ℕ) (inc : ℤ) (ts : List ℤ) :
    (addFrom r inc ts).length = ts.length := by
  simp [addFrom, List.length_take, List.length_drop]
  omega

theorem getElem?_addFrom (inc : ℤ) :
    ∀ (ts : List ℤ) (r p : ℕ),
      (addFrom r inc ts)[p]? = if p < r then ts[p]? else ts[p]?.map (fun x => x + inc)
  | [], r, p => by
    rw [addFrom_nil]
    simp
  | x :: ts, 0, p => by
    rw [addFrom_zero, if_neg (Nat.not_lt_zero p)]
    exact List.getElem?_map _ _ _
  | x :: ts, r + 1, 0 => by
    rw [addFrom_succ_cons]
    simp
  | x :: ts, r + 1, p + 1 => by
    rw [addFrom_succ_cons]
    have ih := getElem?_addFrom inc ts r p
    simp only [List.getElem?_cons_succ]
    rw [ih]
    by_cases h : p < r
    · rw [if_pos h, if_pos (by omega)]
    · rw [if_neg h, if_neg (by omega)]

/-- The total increment the loop of `correct_timestamps` has added at
position `p` once every reset pair `(i, reset_index)` of `ps` has been
processed. -/
def incSum (ps : List (ℕ × ℕ)) (p : ℕ) : ℤ :=
  ((ps.filter (fun q => decide (q.2 ≤ p))).map (fun q => 2 ^ 30 * ((q.1 : ℤ) + 1))).sum

theorem incSum_nil (p : ℕ) : incSum [] p = 0 := rfl

theorem incSum_cons (i r : ℕ) (ps : List (ℕ × ℕ)) (p : ℕ) :
    incSum ((i, r) :: ps) p =
      (if r ≤ p then 2 ^ 30 * ((i : ℤ) + 1) else 0) + incSum ps p := by
  by_cases h : r ≤ p
  · simp [incSum, List.filter_cons, h]
  · simp [incSum, List.filter_cons, h]

theorem incSum_mono (ps : List (ℕ × ℕ)) (p q : ℕ) (hpq : p ≤ q) :
    incSum ps p ≤ incSum ps q := by
  induction ps with
  | nil => simp [incSum_nil]
  | cons hd tl ih =>
    obtain ⟨i, r⟩ := hd
    rw [incSum_cons, incSum_cons]
    have hterm : (0 : ℤ) ≤ 2 ^ 30 * ((i : ℤ) + 1) := by positivity
    by_cases h1 : r ≤ p
    · rw [if_pos h1, if_pos (by omega)]
      linarith
    · rw [if_neg h1]
      by_cases h2 : r ≤ q
      · rw [if_pos h2]
        linarith
      · rw [if_neg h2]
        linarith

theorem incSum_succ_of_mem (ps : List (ℕ × ℕ)) (p i : ℕ) (hmem : (i, p + 1) ∈ ps) :
    incSum ps p + 2 ^ 30 ≤ incSum ps (p + 1) := by
  induction ps with
  | nil => cases hmem
  | cons hd tl ih =>
    obtain ⟨j, r⟩ := hd
    rw [incSum_cons, incSum_cons]
    rcases List.mem_cons.mp hmem with heq | htl
    · cases heq
      rw [if_neg (by omega), if_pos (le_refl _)]
      have hmono := incSum_mono tl p (p + 1) (by omega)
      have hone : (2 : ℤ) ^ 30 * 1 ≤ 2 ^ 30 * ((i : ℤ) + 1) := by
        have : (1 : ℤ) ≤ (i : ℤ) + 1 := by omega
        exact mul_le_mul_of_nonneg_left this (by positivity)
      linarith
    · have hrec := ih htl
      have hterm : (0 : ℤ) ≤ 2 ^ 30 * ((j : ℤ) + 1) := by positivity
      by_cases h1 : r ≤ p
      · rw [if_pos h1, if_pos (by omega)]
        linarith
      · rw [if_neg h1]
        by_cases h2 : r ≤ p + 1
        · rw [if_pos h2]
          linarith
        · rw [if_neg h2]
          linarith

theorem length_applyResets :
    ∀ (ps : List (ℕ × ℕ)) (ts : List ℤ), (applyResets ts ps).length = ts.length
  | [], _ => rfl
  | (i, r) :: rest, ts => by
    rw [applyResets, length_applyResets rest, length_addFrom]

theorem getElem?_applyResets :
    ∀ (ps : List (ℕ × ℕ)) (ts : List ℤ) (p : ℕ),
      (applyResets ts ps)[p]? = ts[p]?.map (fun x => x + incSum ps p)
  | [], ts, p => by
    rw [applyResets, incSum_nil]
    cases ts[p]? <;> simp
  | (i, r) :: rest, ts, p => by
    rw [applyResets, getElem?_applyResets rest, getElem?_addFrom, incSum_cons]
    by_cases h : r ≤ p
    · rw [if_neg (by omega), if_pos h]
      cases ts[p]? with
      | none => simp
      | some v =>
        simp
        ring
    · rw [if_pos (by omega), if_neg h]
      cases ts[p]? <;> simp

theorem length_correct_timestamps (ts : List ℤ) :
    (correct_timestamps ts).length = ts.length :=
  length_applyResets _ _

theorem getElem?_correct_timestamps (ts : List ℤ) (p : ℕ) :
    (correct_timestamps ts)[p]? = ts[p]?.map (fun x => x + incSum (resetIndices ts).enum p) :=
  getElem?_applyResets _ _ _

theorem succ_mem_resetIndices (ts : List ℤ) (p : ℕ) (h1 : p + 1 < ts.length)
    (h2 : ts.getD (p + 1) 0 < ts.getD p 0) : p + 1 ∈ resetIndices ts := by
  unfold resetIndices
  refine List.mem_map.mpr ⟨p, List.mem_filter.mpr ⟨List.mem_range.mpr (by omega), ?_⟩, rfl⟩
  simpa using h2

/-! ## Claims about the timestamp correction -/

/-- C1: on the timestamp array `[3, 1, 0, 5]` the code detects the resets
at indices 1 and 2, but the loop `ts[reset_index:] += increment * (i + 1)`
adds `2^30` from index 1 and then a further `2 * 2^30` from index 2, so the
elements from the second reset onward carry a total offset of `3 * 2^30`,
not the `2 * 2^30` the claim (and the code's own comment, one clock-cycle
increment per reset) prescribes. This theorem evaluates the code at the
failing input. -/
theorem correct_timestamps_double_reset_eval :
    resetIndices [3, 1, 0, 5] = [1, 2] ∧
    correct_timestamps [3, 1, 0, 5] = [3, 1 + 2 ^ 30, 0 + 3 * 2 ^ 30, 5 + 3 * 2 ^ 30] ∧
    correct_timestamps [3, 1, 0, 5] ≠ [3, 1 + 2 ^ 30, 0 + 2 * 2 ^ 30, 5 + 2 * 2 ^ 30] := by
  refine ⟨by decide, by decide, by decide⟩

/-- C2: for every timestamp array whose entries lie in `[0, 2^30)`, the
corrected array is monotonically non-decreasing, whatever the number of
wraparound points. -/
theorem correct_timestamps_monotone (ts : List ℤ)
    (h : ∀ x ∈ ts, 0 ≤ x ∧ x < 2 ^ 30) :
    List.Chain' (· ≤ ·) (correct_timestamps ts) := by
  rw [List.chain'_iff_get]
  intro p hp
  have hl := length_correct_timestamps ts
  have hp1 : p + 1 < ts.length := by omega
  have hp0 : p < ts.length := by omega
  have hcp0 : p < (correct_timestamps ts).length := by omega
  have hcp1 : p + 1 < (correct_timestamps ts).length := by omega
  simp only [List.get_eq_getElem]
  have cA : (correct_timestamps ts)[p] = ts[p] + incSum (resetIndices ts).enum p := by
    have h1 := getElem?_correct_timestamps ts p
    rw [List.getElem?_eq_getElem hcp0, List.getElem?_eq_getElem hp0] at h1
    exact Option.some.inj h1
  have cB : (correct_timestamps ts)[p + 1] =
      ts[p + 1] + incSum (resetIndices ts).enum (p + 1) := by
    have h1 := getElem?_correct_timestamps ts (p + 1)
    rw [List.getElem?_eq_getElem hcp1, List.getElem?_eq_getElem hp1] at h1
    exact Option.some.inj h1
  rw [cA, cB]
  have hA := h ts[p] (List.getElem_mem hp0)
  have hB := h ts[p + 1] (List.getElem_mem hp1)
  by_cases hc : ts[p + 1] < ts[p]
  · have hmem : p + 1 ∈ resetIndices ts := by
      apply succ_mem_resetIndices ts p hp1
      rw [List.getD_eq_getElem?_getD, List.getD_eq_getElem?_getD,
        List.getElem?_eq_getElem hp0, List.getElem?_eq_getElem hp1]
      exact hc
    obtain ⟨idx, hidx⟩ := List.mem_iff_getElem?.mp hmem
    have hpair : (idx, p + 1) ∈ (resetIndices ts).enum :=
      List.mem_enum_iff_getElem?.mpr hidx
    have hstep := incSum_succ_of_mem (resetIndices ts).enum p idx hpair
    linarith
  · push_neg at hc
    have hmono := incSum_mono (resetIndices ts).enum p (p + 1) (by omega)
    linarith

/-- C2 witness: the bound hypothesis holds for `[5, 6, 2, 3]` and the
theorem applies there. -/
theorem correct_timestamps_monotone_witness :
    (∀ x ∈ ([5, 6, 2, 3] : List ℤ), 0 ≤ x ∧ x < 2 ^ 30) ∧
    List.Chain' (· ≤ ·) (correct_timestamps [5, 6, 2, 3]) :=
  ⟨by decide, correct_timestamps_monotone [5, 6, 2, 3] (by decide)⟩

/-! ## Event construction: characterisation of the cyclic cursor -/

theorem makeEvent_eq_some {w : List ℚ} {t : ℤ} {e : DigitizerEvent}
    (h : makeEvent w t = some e) : e.waveform = w ∧ e.timestamp = t := by
  unfold makeEvent at h
  cases hm : listMin w with
  | none =>
    rw [hm] at h
    simp at h
  | some m =>
    rw [hm] at h
    simp only [Option.map_some'] at h
    rw [← Option.some.inj h]
    exact ⟨rfl, rfl⟩

theorem buildChannelEvents_spec (ts : List ℤ) :
    ∀ (ws : List (List ℚ)) (c : ℕ) (evs : List DigitizerEvent),
      buildChannelEvents ts ws c = some evs →
      evs.map DigitizerEvent.waveform = ws ∧
      evs.map DigitizerEvent.timestamp =
        (List.range ws.length).map (fun k => ts.getD ((c + k) % ts.length) 0) := by
  intro ws
  induction ws with
  | nil =>
    intro c evs h
    rw [buildChannelEvents] at h
    rw [← Option.some.inj h]
    exact ⟨rfl, rfl⟩
  | cons w ws ih =>
    intro c evs h
    rw [buildChannelEvents] at h
    cases ht : nextTimestamp ts c with
    | none =>
      rw [ht] at h
      simp at h
    | some t =>
      rw [ht] at h
      simp only [Option.bind_eq_bind, Option.some_bind] at h
      cases he : makeEvent w t with
      | none =>
        rw [he] at h
        simp at h
      | some e =>
        rw [he] at h
        simp only [Option.bind_eq_bind, Option.some_bind] at h
        cases hr : buildChannelEvents ts ws (c + 1) with
        | none =>
          rw [hr] at h
          simp at h
        | some rest =>
          rw [hr] at h
          simp only [Option.bind_eq_bind, Option.some_bind] at h
          rw [← Option.some.inj h]
          obtain ⟨hew, het⟩ := makeEvent_eq_some he
          obtain ⟨ihw, iht⟩ := ih (c + 1) rest hr
          have htv : t = ts.getD (c % ts.length) 0 := by

            unfold nextTimestamp at ht
            rw [List.getD_eq_getElem?_getD, ← List.get?_eq_getElem?, ht]
            rfl
          constructor
          · rw [List.map_cons, hew, ihw]
          · rw [List.map_cons, het, iht, List.length_cons, List.range_succ_eq_map,
              List.map_cons, List.map_map]
            have hfun : ((fun k => ts.getD ((c + k) % ts.length) 0) ∘ Nat.succ) =
                (fun k => ts.getD ((c + 1 + k) % ts.length) 0) := by
              funext k
              simp only [Function.comp_apply]
              have h1 : c + Nat.succ k = c + 1 + k := by omega
              rw [h1]
            rw [hfun, htv]
            norm_num

theorem buildEvents_spec (ts : List ℤ) :
    ∀ (prs : List (ℤ × List (List ℚ))) (c : ℕ) (d : List (ℤ × List DigitizerEvent)),
      buildEvents ts prs c = some d →
      d.map (fun q => (q.1, q.2.map DigitizerEvent.waveform)) = prs ∧
      (d.map Prod.snd).flatten.map DigitizerEvent.timestamp =
        (List.range ((prs.map (fun q => q.2.length)).sum)).map
          (fun k => ts.getD ((c + k) % ts.length) 0) := by
  intro prs
  induction prs with
  | nil =>
    intro c d h
    rw [buildEvents] at h
    rw [← Option.some.inj h]
    exact ⟨rfl, rfl⟩
  | cons pr tl ih =>
    obtain ⟨ch, ws⟩ := pr
    intro c d h
    rw [buildEvents] at h
    cases hevs : buildChannelEvents ts ws c with
    | none =>
      rw [hevs] at h
      simp at h
    | some evs =>
      rw [hevs] at h
      simp only [Option.bind_eq_bind, Option.some_bind] at h
      cases hrest : buildEvents ts tl (c + ws.length) with
      | none =>
        rw [hrest] at h
        simp at h
      | some d' =>
        rw [hrest] at h
        simp only [Option.bind_eq_bind, Option.some_bind] at h
        rw [← Option.some.inj h]
        obtain ⟨hw, htime⟩ := buildChannelEvents_spec ts ws c evs hevs
        obtain ⟨ihw, ihtime⟩ := ih (c + ws.length) d' hrest
        constructor
        · rw [List.map_cons, hw, ihw]
        · rw [List.map_cons, List.map_cons, List.flatten_cons, List.map_append,
            List.sum_cons, htime, ihtime, List.range_add, List.map_append,
            List.map_map]
          have hfun : ((fun k => ts.getD ((c + k) % ts.length) 0) ∘
                fun x => (ch, ws).2.length + x) =
              (fun k => ts.getD ((c + ws.length + k) % ts.length) 0) := by
            funext k
            simp only [Function.comp_apply]
            have h1 : c + (ws.length + k) = c + ws.length + k := by omega
            rw [show (ch, ws).2.length = ws.length from rfl, h1]
          rw [hfun]

/-! ## Claims about event construction -/

/-- C3: whenever `create_events_dict` succeeds on a non-empty global
timestamp array, the `j`-th event constructed overall (channels in
container order, waveforms in capture order) carries timestamp
`ts[j % len ts]`. -/
theorem events_cyclic_timestamps (channels : List ℤ) (waveforms : List (List (List ℚ)))
    (ts : List ℤ) (d : List (ℤ × List DigitizerEvent)) (_hts : ts ≠ [])
    (h : create_events_dict channels waveforms ts = some d) :
    ∀ (j : ℕ) (hj : j < ((d.map Prod.snd).flatten).length),
      (((d.map Prod.snd).flatten).get ⟨j, hj⟩).timestamp = ts.getD (j % ts.length) 0 := by
  intro j hj
  have hs := (buildEvents_spec ts (channels.zip waveforms) 0 d h).2
  have hlen : ((d.map Prod.snd).flatten).length =
      (((channels.zip waveforms)).map (fun q => q.2.length)).sum := by
    have h1 := congrArg List.length hs
    rw [List.length_map, List.length_map, List.length_range] at h1
    exact h1
  have hj2 : j < (((channels.zip waveforms)).map (fun q => q.2.length)).sum := by omega
  have h2 := congrArg (fun l => l[j]?) hs
  simp only [List.getElem?_map] at h2
  rw [List.getElem?_eq_getElem hj, List.getElem?_range hj2] at h2
  simp only [Option.map_some'] at h2
  have h3 := Option.some.inj h2
  rw [List.get_eq_getElem, h3]
  norm_num

/-- C3 witness: one channel, three one-sample waveforms, timestamp array
`[100, 200]`; the third event (index 2) gets `ts[2 % 2] = 100`, and the
three events carry `[100, 200, 100]` in order. -/
theorem events_cyclic_timestamps_witness :
    (([100, 200] : List ℤ) ≠ [] ∧
      create_events_dict [0] [[[-1], [-2], [-3]]] [100, 200] =
        some [(0, [⟨[-1], 100, 1⟩, ⟨[-2], 200, 2⟩, ⟨[-3], 100, 3⟩])]) ∧
    ((([(((0 : ℤ), [(⟨[-1], 100, 1⟩ : DigitizerEvent), ⟨[-2], 200, 2⟩,
        ⟨[-3], 100, 3⟩]))].map Prod.snd).flatten).get ⟨2, by decide⟩).timestamp =
      ([100, 200] : List ℤ).getD (2 % ([100, 200] : List ℤ).length) 0 :=
  ⟨⟨by decide, by decide⟩,
    events_cyclic_timestamps [0] [[[-1], [-2], [-3]]] [100, 200]
      [(0, [⟨[-1], 100, 1⟩, ⟨[-2], 200, 2⟩, ⟨[-3], 100, 3⟩])]
      (by decide) (by decide) 2 (by decide)⟩

/-- C5: whenever `create_events_dict` succeeds on a container with
duplicate-free channels aligned with the per-channel waveform arrays, the
resulting mapping lists the channels exactly in container order (so each
channel owns exactly one list), and the list of channel `i` consists of
events whose waveforms are exactly channel `i`'s waveforms, in capture
order (hence also of the same length). -/
theorem events_dict_channel_lists (channels : List ℤ) (waveforms : List (List (List ℚ)))
    (ts : List ℤ) (d : List (ℤ × List DigitizerEvent))
    (hlen : channels.length = waveforms.length) (hnd : channels.Nodup)
    (h : create_events_dict channels waveforms ts = some d) :
    d.map Prod.fst = channels ∧
    (∀ c ∈ channels, (d.map Prod.fst).count c = 1) ∧
    ∀ (i : ℕ) (hi : i < d.length),
      ((d.get ⟨i, hi⟩).2).map DigitizerEvent.waveform = waveforms.getD i [] := by
  have hs := (buildEvents_spec ts (channels.zip waveforms) 0 d h).1
  have hdlen : d.length = channels.length := by
    have h1 := congrArg List.length hs
    rw [List.length_map, List.length_zip] at h1
    omega
  have hfst : d.map Prod.fst = channels := by
    have h1 := congrArg (List.map Prod.fst) hs
    rw [List.map_map, List.map_fst_zip channels waveforms hlen.le] at h1
    exact h1
  refine ⟨hfst, ?_, ?_⟩
  · intro c hc
    rw [hfst]
    exact List.count_eq_one_of_mem hnd hc
  · intro i hi
    have hiz : i < (channels.zip waveforms).length := by
      rw [List.length_zip]
      omega
    have h2 := congrArg (fun l => l[i]?) hs
    simp only [List.getElem?_map] at h2
    rw [List.getElem?_eq_getElem hi, List.getElem?_eq_getElem hiz] at h2
    simp only [Option.map_some'] at h2
    have h3 := Option.some.inj h2
    have h4 := congrArg Prod.snd h3
    simp only [List.getElem_zip] at h4
    rw [List.get_eq_getElem, h4, List.getD_eq_getElem?_getD,
      List.getElem?_eq_getElem (by omega : i < waveforms.length)]
    rfl

/-- C5 witness: channels `[0, 1]` with one and two waveforms; the output
maps `0` and `1` in order, each exactly once, and channel 1's list holds
its two waveforms in capture order. -/
theorem events_dict_channel_lists_witness :
    ([(0 : ℤ), 1].Nodup ∧
      create_events_dict [0, 1] [[[-1]], [[-2], [-3]]] [7] =
        some [(0, [⟨[-1], 7, 1⟩]), (1, [⟨[-2], 7, 2⟩, ⟨[-3], 7, 3⟩])]) ∧
    ([((0 : ℤ), [(⟨[-1], 7, 1⟩ : DigitizerEvent)]),
        (1, [⟨[-2], 7, 2⟩, ⟨[-3], 7, 3⟩])].map Prod.fst = [0, 1] ∧
      (∀ c ∈ ([0, 1] : List ℤ),
        ([((0 : ℤ), [(⟨[-1], 7, 1⟩ : DigitizerEvent)]),
          (1, [⟨[-2], 7, 2⟩, ⟨[-3], 7, 3⟩])].map Prod.fst).count c = 1) ∧
      ∀ (i : ℕ) (hi : i < [((0 : ℤ), [(⟨[-1], 7, 1⟩ : DigitizerEvent)]),
          (1, [⟨[-2], 7, 2⟩, ⟨[-3], 7, 3⟩])].length),
        (([((0 : ℤ), [(⟨[-1], 7, 1⟩ : DigitizerEvent)]),
          (1, [⟨[-2], 7, 2⟩, ⟨[-3], 7, 3⟩])].get ⟨i, hi⟩).2).map DigitizerEvent.waveform =
          [[[(-1 : ℚ)]], [[-2], [-3]]].getD i []) :=
  ⟨⟨by decide, by decide⟩,
    events_dict_channel_lists [0, 1] [[[-1]], [[-2], [-3]]] [7]
      [(0, [⟨[-1], 7, 1⟩]), (1, [⟨[-2], 7, 2⟩, ⟨[-3], 7, 3⟩])]
      (by decide) (by decide) (by decide)⟩

/-- C6: a successfully constructed event stores, eagerly in its
`amplitude` field, `-1` times the minimum sample of its waveform; the
amplitude is non-negative whenever that minimum is non-positive. -/
theorem amplitude_neg_min (w : List ℚ) (t : ℤ) (m : ℚ) (h : listMin w = some m) :
    makeEvent w t = some ⟨w, t, -m⟩ ∧ (m ≤ 0 → 0 ≤ -m) := by
  constructor
  · unfold makeEvent
    rw [h]
    rfl
  · intro hm
    linarith

/-- C6 witness: waveform `[-2, 3]` has minimum `-2`, so the event stores
amplitude `-(-2) = 2 ≥ 0`. -/
theorem amplitude_neg_min_witness :
    listMin [(-2 : ℚ), 3] = some (-2) ∧
    (makeEvent [(-2 : ℚ), 3] 7 = some ⟨[(-2 : ℚ), 3], 7, -(-2)⟩ ∧
      ((-2 : ℚ) ≤ 0 → (0 : ℚ) ≤ -(-2))) :=
  ⟨by decide, amplitude_neg_min [(-2 : ℚ), 3] 7 (-2) (by decide)⟩

/-- C8: constructing an event from an empty waveform fails (the
`np.amin` call in the amplitude derivation raises on an empty array), for
every timestamp. -/
theorem empty_waveform_fails (t : ℤ) : makeEvent [] t = none := rfl

/-- C8 witness: the failure at a concrete timestamp. -/
theorem empty_waveform_fails_witness : makeEvent [] 7 = none :=
  empty_waveform_fails 7

/-- C10: if the global timestamp array is empty while some channel of the
container has at least one waveform, `create_events_dict` does not return
a mapping: the first draw from the cyclic cursor has nothing to yield and
the whole construction aborts. -/
theorem buildEvents_empty_ts_none :
    ∀ (prs : List (ℤ × List (List ℚ))) (c : ℕ),
      (∃ p ∈ prs, p.2 ≠ []) → buildEvents [] prs c = none
  | [], _, h => by
    rcases h with ⟨p, hp, _⟩
    cases hp
  | (ch, ws) :: tl, c, h => by
    cases ws with
    | nil =>
      rcases h with ⟨p, hp, hne⟩
      rcases List.mem_cons.mp hp with heq | htl
      · rw [heq] at hne
        simp at hne
      · have hrec := buildEvents_empty_ts_none tl (c + ([] : List (List ℚ)).length)
          ⟨p, htl, hne⟩
        rw [buildEvents, buildChannelEvents]
        simp only [Option.bind_eq_bind, Option.some_bind]
        rw [hrec]
        rfl
    | cons w ws' =>
      rw [buildEvents]
      simp [buildChannelEvents, nextTimestamp]

theorem empty_timestamps_aborts (channels : List ℤ) (waveforms : List (List (List ℚ)))
    (h : ∃ p ∈ channels.zip waveforms, p.2 ≠ []) :
    create_events_dict channels waveforms [] = none := by
  unfold create_events_dict
  exact buildEvents_empty_ts_none _ 0 h

/-- C10 witness: one channel with one non-empty waveform and an empty
timestamp array make the construction abort. -/
theorem empty_timestamps_aborts_witness :
    (∃ p ∈ ([(0 : ℤ)].zip [[[(1 : ℚ)]]]), p.2 ≠ []) ∧
    create_events_dict [0] [[[1]]] [] = none :=
  ⟨⟨(0, [[1]]), by decide, by decide⟩,
    empty_timestamps_aborts [0] [[[1]]] ⟨(0, [[1]]), by decide, by decide⟩⟩

/-! ## Claims about the waveform pipeline -/

theorem sum_map_div (l : List ℚ) (r : ℚ) : (l.map (fun x => x / r)).sum = l.sum / r := by
  induction l with
  | nil => simp
  | cons x xs ih => simp [ih, add_div]

theorem sum_map_sub_const (l : List ℚ) (b : ℚ) :
    (l.map (fun x => x - b)).sum = l.sum - l.length * b := by
  induction l with
  | nil => simp
  | cons x xs ih =>
    simp only [List.map_cons, List.sum_cons, ih, List.length_cons]
    push_cast
    ring

/-- C4: on a waveform of at least 50 samples, the pipeline (baseline
subtraction, then division by 4096) sends the sample at position `j` to
`(raw[j] - mean(raw[0:50])) / 4096`, and the mean of the first 50
corrected samples is exactly 0. -/
theorem pipeline_sample_formula (w : List ℚ) (h : 50 ≤ w.length) :
    (∀ j, j < w.length →
      (turn_into_volts (subtract_baseline w)).getD j 0 =
        (w.getD j 0 - (w.take 50).sum / 50) / 4096) ∧
    ((turn_into_volts (subtract_baseline w)).take 50).sum / 50 = 0 := by
  have h50 : (50 ⊓ w.length) = 50 := by omega
  have hb : baseline w = (w.take 50).sum / 50 := by
    unfold baseline
    rw [List.length_take, h50]
    norm_num
  constructor
  · intro j hj
    unfold turn_into_volts subtract_baseline
    rw [List.getD_eq_getElem?_getD, List.getElem?_map, List.getElem?_map,
      List.getElem?_eq_getElem hj, List.getD_eq_getElem?_getD,
      List.getElem?_eq_getElem hj]
    simp [hb]
  · unfold turn_into_volts subtract_baseline
    rw [← List.map_take, ← List.map_take, sum_map_div, sum_map_sub_const,
      List.length_take, h50, hb]
    have hcan : (((50 : ℕ) : ℚ)) * ((w.take 50).sum / 50) = (w.take 50).sum := by
      push_cast
      field_simp
    rw [hcan]
    simp

/-- C4 witness: a 60-sample waveform whose first 50 samples all equal
1000 (mean 1000) and whose sample 55 is 4096 ends with
`sample[55] = (4096 - 1000) / 4096`. -/
theorem pipeline_sample_formula_witness :
    (50 ≤ (List.replicate 50 (1000 : ℚ) ++ [0, 0, 0, 0, 0, 4096, 0, 0, 0, 0]).length ∧
      ((List.replicate 50 (1000 : ℚ) ++
        [0, 0, 0, 0, 0, 4096, 0, 0, 0, 0]).take 50).sum / 50 = 1000) ∧
    (turn_into_volts (subtract_baseline (List.replicate 50 (1000 : ℚ) ++
        [0, 0, 0, 0, 0, 4096, 0, 0, 0, 0]))).getD 55 0 = (4096 - 1000) / 4096 := by
  have hsum : ((List.replicate 50 (1000 : ℚ) ++
      [0, 0, 0, 0, 0, 4096, 0, 0, 0, 0]).take 50).sum = 50000 := by
    rw [List.take_append_of_le_length (by simp), List.take_replicate]
    norm_num [List.sum_replicate]
  have hg : (List.replicate 50 (1000 : ℚ) ++
      [0, 0, 0, 0, 0, 4096, 0, 0, 0, 0]).getD 55 0 = 4096 := by decide
  refine ⟨⟨by decide, by rw [hsum]; norm_num⟩, ?_⟩
  have h := (pipeline_sample_formula
    (List.replicate 50 (1000 : ℚ) ++ [0, 0, 0, 0, 0, 4096, 0, 0, 0, 0]) (by decide)).1
    55 (by decide)
  rw [h, hg, hsum]
  norm_num

/-! ## Claims about channel discovery -/

theorem mapOption_spec (f : α → Option β) :
    ∀ (l : List α), (∀ a ∈ l, (f a).isSome) →
      ∃ bs, mapOption f l = some bs ∧ ∀ b, b ∈ bs ↔ ∃ a ∈ l, f a = some b
  | [], _ => ⟨[], rfl, by simp⟩
  | a :: l, h => by
    obtain ⟨v, hv⟩ := Option.isSome_iff_exists.mp (h a (List.mem_cons_self a l))
    obtain ⟨bs, hbs, hmem⟩ := mapOption_spec f l (fun x hx => h x (List.mem_cons_of_mem a hx))
    refine ⟨v :: bs, ?_, ?_⟩
    · rw [mapOption, hv, hbs]
      rfl
    · intro b
      simp only [List.mem_cons, hmem]
      constructor
      · rintro (rfl | ⟨x, hx, hfx⟩)
        · exact ⟨a, Or.inl rfl, hv⟩
        · exact ⟨x, Or.inr hx, hfx⟩
      · rintro ⟨x, hx, hfx⟩
        rcases hx with rfl | hxl
        · left
          rw [hv] at hfx
          exact (Option.some.inj hfx).symm
        · right
          exact ⟨x, hxl, hfx⟩

theorem foo_key_matches_no_channel (n : ℕ) :
    "foo_waveforms" ≠ "channel" ++ toString n ++ "_waveforms" := by
  intro h
  have hd := congrArg String.data h
  rw [String.data_append, String.data_append] at hd
  have h1 : "foo_waveforms".data = 'f' :: "oo_waveforms".data := rfl
  have h2 : "channel".data = 'c' :: "hannel".data := rfl
  rw [h1, h2, List.cons_append, List.cons_append] at hd
  injection hd with hh ht
  exact absurd hh (by decide)

/-- The source file of claim C7's counterexample: its only
`'waveforms'`-containing key, `foo_waveforms`, matches no
`channel<N>_waveforms` pattern, and a `timestamp` branch is present. -/
def badFile : RootFile where
  keys := ["foo_waveforms", "timestamp"]
  waveformBranch := fun _ => none
  timestampBranch := some []

/-- C7 counterexample: a source none of whose keys matches the
`channel<N>_waveforms` naming pattern on which the pipeline nevertheless
fails (raises) instead of returning an empty mapping: the stray key
`foo_waveforms` contains `'waveforms'`, so `get_channel_list` tries to
parse it and hits an `IndexError`. -/
theorem no_pattern_key_still_fails :
    (∀ n : ℕ, "foo_waveforms" ≠ "channel" ++ toString n ++ "_waveforms") ∧
    badFile.keys = ["foo_waveforms", "timestamp"] ∧
    create_from_file badFile = none :=
  ⟨foo_key_matches_no_channel, rfl, by decide⟩

/-- C7 (amended): for every source none of whose keys contains the
substring `'waveforms'` and whose `timestamp` branch is present, the
channel set is empty and the full pipeline returns an empty mapping
without failing. -/
theorem empty_mapping_on_no_waveform_keys (f : RootFile)
    (h1 : ∀ k ∈ f.keys, containsSubstr k "waveforms" = false)
    (h2 : f.timestampBranch.isSome) :
    create_from_file f = some [] := by
  obtain ⟨tsv, htsv⟩ := Option.isSome_iff_exists.mp h2
  have hfilter : f.keys.filter (fun k => containsSubstr k "waveforms") = [] :=
    List.filter_eq_nil_iff.mpr (fun a ha => by simp [h1 a ha])
  have hch : get_channel_list f.keys = some [] := by
    unfold get_channel_list
    rw [hfilter]
    rfl
  unfold create_from_file containerFromFile
  rw [hch, htsv]
  simp only [Option.bind_eq_bind, Option.some_bind]
  rfl

/-- C7 witness: a concrete source with keys `other` and `timestamp` and
a timestamp branch, on which the pipeline returns the empty mapping. -/
def plainFile : RootFile where
  keys := ["other", "timestamp"]
  waveformBranch := fun _ => none
  timestampBranch := some [1, 2]

theorem empty_mapping_on_no_waveform_keys_witness :
    ((∀ k ∈ plainFile.keys, containsSubstr k "waveforms" = false) ∧
      plainFile.timestampBranch.isSome) ∧
    create_from_file plainFile = some [] :=
  ⟨⟨by decide, by decide⟩,
    empty_mapping_on_no_waveform_keys plainFile (by decide) (by decide)⟩

/-- C9 counterexample: the key `foo_waveforms` matches no
`channel<N>_waveforms` pattern, yet it does not leave the channel set
empty without failure — `get_channel_list` fails on it. -/
theorem channel_scan_fails_on_stray_key :
    (∀ n : ℕ, "foo_waveforms" ≠ "channel" ++ toString n ++ "_waveforms") ∧
    get_channel_list ["foo_waveforms"] = none :=
  ⟨foo_key_matches_no_channel, by decide⟩

/-- C9 (amended): whenever every key containing the substring
`'waveforms'` parses (text before the first `'_'`, then text after the
leading `'channel'`, read as an integer), the channel list is defined,
duplicate-free, and holds exactly the integers so parsed; keys without
the `'waveforms'` substring contribute no channel. -/
theorem get_channel_list_characterization (keys : List String)
    (h : ∀ k ∈ keys, containsSubstr k "waveforms" = true → (extractChannel k).isSome) :
    ∃ cs, get_channel_list keys = some cs ∧ cs.Nodup ∧
      ∀ c : ℤ, c ∈ cs ↔ ∃ k ∈ keys, containsSubstr k "waveforms" = true ∧
        extractChannel k = some c := by
  obtain ⟨cs0, hm, hmem⟩ := mapOption_spec extractChannel
    (keys.filter (fun k => containsSubstr k "waveforms"))
    (fun k hk => h k (List.mem_filter.mp hk).1 (List.mem_filter.mp hk).2)
  refine ⟨cs0.dedup, ?_, List.nodup_dedup _, ?_⟩
  · unfold get_channel_list
    rw [hm]
    rfl
  · intro c
    rw [List.mem_dedup, hmem c]
    constructor
    · rintro ⟨k, hk, hek⟩
      exact ⟨k, (List.mem_filter.mp hk).1, (List.mem_filter.mp hk).2, hek⟩
    · rintro ⟨k, hk, hc, hek⟩
      exact ⟨k, List.mem_filter.mpr ⟨hk, hc⟩, hek⟩

theorem get_channel_list_characterization_witness :
    ∃ cs, get_channel_list ["channel5_waveforms", "channel1_waveforms", "other"] = some cs ∧
      cs.Nodup ∧
      ∀ c : ℤ, c ∈ cs ↔ ∃ k ∈ ["channel5_waveforms", "channel1_waveforms", "other"],
        containsSubstr k "waveforms" = true ∧ extractChannel k = some c :=
  get_channel_list_characterization _ (by decide)

end DRSpy
